import Mathlib

/-!
Verification of the tile decomposition / reconstruction utilities and the
segmentation network topology of the geospatial U-Net repository.

The Python arrays are embedded as `Img α`: a shape `(height, width, chans)`
together with a total indexing function.  Rational numbers stand in for the
numeric array contents of `utils.py`; the network of `model.py` is embedded
over the reals (its one analytic ingredient is the sigmoid).  A Python dict
of tiles is an association list in insertion (row-major) order; NumPy
slice-assignment together with its broadcasting rule is modelled explicitly,
and the exceptions Python can raise (`StopIteration` from `next` on an empty
iterator, `ValueError` from a failed broadcast, `KeyError` from a dict
lookup) are modelled with `Except`.
-/

/-- A multi-band raster / array: shape plus a total indexing function
(indices outside the shape are simply never consulted by the theorems). -/
structure Img (α : Type) where
  height : Nat
  width : Nat
  chans : Nat
  data : Nat → Nat → Nat → α

/-- Python `range(0, stop, step)` for `step > 0`: the list
`[0, step, 2*step, ...]` of all multiples of `step` below `stop`. -/
def pyRange (stop step : Nat) : List Nat :=
  (List.range ((stop + step - 1) / step)).map (· * step)

/-- NumPy slicing `img[i : i+t, j : j+t]` (all channels): the extracted
shape is clipped at the array boundary, the data is offset. -/
def npSlice (img : Img α) (i j t : Nat) : Img α :=
  ⟨min t (img.height - i), min t (img.width - j), img.chans,
   fun r c ch => img.data (i + r) (j + c) ch⟩

/-- `cut_into_tiles` from `utils.py`: scan row offsets `range(0, height,
tile_size)` and column offsets `range(0, width, tile_size)`; extract the
slice `img[i:i+tile_size, j:j+tile_size]` and keep it (keyed by `(i, j)`)
only if both extracted spatial dimensions equal `tile_size`. -/
def cut_into_tiles (img : Img ℚ) (tile_size : Nat) : List ((Nat × Nat) × Img ℚ) :=
  (pyRange img.height tile_size).flatMap fun i =>
    (pyRange img.width tile_size).filterMap fun j =>
      let tile := npSlice img i j tile_size
      if tile.height = tile_size ∧ tile.width = tile_size then
        some ((i, j), tile)
      else
        none

/-- The keys of a tile dictionary, in insertion order. -/
def keysOf (d : List ((Nat × Nat) × Img ℚ)) : List (Nat × Nat) :=
  d.map Prod.fst

/-- The Python exceptions the tile utilities can raise. -/
inductive PyError where
  /-- `StopIteration`, raised by `next(iter(...))` on an empty dict. -/
  | stopIteration
  /-- `ValueError`, raised by NumPy when a slice assignment cannot
  broadcast the right-hand side into the selected region. -/
  | valueError
deriving DecidableEq

/-- The region of the output written by `full_img[i:i+t, j:j+t] = ...`
for output shape `(H, W)`: rows `[i, i + min t (H-i))`, columns
`[j, j + min t (W-j))` (NumPy clips a slice at the array boundary). -/
def inRegion (H W t i j r c : Nat) : Prop :=
  i ≤ r ∧ r < i + min t (H - i) ∧ j ≤ c ∧ c < j + min t (W - j)

instance (H W t i j r c : Nat) : Decidable (inRegion H W t i j r c) := by
  unfold inRegion; infer_instance

/-- NumPy's condition for `full_img[i:i+t, j:j+t] = tile[..., 0]` to
succeed: each dimension of the right-hand side (shape
`(tile.height, tile.width)`) must equal the clipped slice dimension or be 1
(broadcasting). -/
def assignCond (H W t : Nat) (kt : (Nat × Nat) × Img ℚ) : Prop :=
  (kt.2.height = min t (H - kt.1.1) ∨ kt.2.height = 1) ∧
  (kt.2.width = min t (W - kt.1.2) ∨ kt.2.width = 1)

instance (H W t : Nat) (kt : (Nat × Nat) × Img ℚ) : Decidable (assignCond H W t kt) := by
  unfold assignCond; infer_instance

/-- The pure effect of a successful `full_img[i:i+t, j:j+t] = tile[..., 0]`:
inside the written region the value comes from channel 0 of the tile (a
broadcast dimension of size 1 repeats index 0), elsewhere the old value. -/
def applyTile (H W t : Nat) (full : Nat → Nat → ℚ) (kt : (Nat × Nat) × Img ℚ) :
    Nat → Nat → ℚ :=
  fun r c =>
    if inRegion H W t kt.1.1 kt.1.2 r c then
      kt.2.data (if kt.2.height = 1 then 0 else r - kt.1.1)
        (if kt.2.width = 1 then 0 else c - kt.1.2) 0
    else
      full r c

/-- One NumPy slice assignment `full_img[i:i+t, j:j+t] = tile[..., 0]`:
succeeds (with the updated array) iff the broadcast condition holds,
otherwise raises `ValueError`. -/
def assignSlice (H W t : Nat) (full : Nat → Nat → ℚ) (kt : (Nat × Nat) × Img ℚ) :
    Except PyError (Nat → Nat → ℚ) :=
  if assignCond H W t kt then .ok (applyTile H W t full kt) else .error .valueError

/-- `jahit_tiles` from `utils.py`: allocate `np.zeros(output_shape[:2])`,
infer the tile size as `shape[0]` of the first tile (`next(iter(...))`,
`StopIteration` on an empty dict), then assign every tile's channel 0 into
`full_img[i:i+tile_size, j:j+tile_size]` in insertion order. -/
def jahit_tiles (tiles : List ((Nat × Nat) × Img ℚ)) (output_shape : List Nat) :
    Except PyError (Nat → Nat → ℚ) :=
  match tiles with
  | [] => .error .stopIteration
  | t0 :: _ =>
    let t := t0.2.height
    let H := output_shape.getD 0 0
    let W := output_shape.getD 1 0
    tiles.foldlM (fun full kt => assignSlice H W t full kt) (fun _ _ => (0 : ℚ))

/-- Evaluate a stitched result at a pixel, `none` when stitching raised. -/
def evalAt (e : Except PyError (Nat → Nat → ℚ)) (r c : Nat) : Option ℚ :=
  match e with
  | .ok f => some (f r c)
  | .error _ => none

/-- Whether an `Except` result is a success. -/
def isOkE (e : Except ε α) : Bool :=
  match e with
  | .ok _ => true
  | .error _ => false

/-- The list comprehension `[d[idx] for idx in ks]`: gathers the tiles in
the order of the key list; a missing key raises `KeyError` (carrying the
offending key) at the first failing lookup. -/
def gather (d : List ((Nat × Nat) × Img ℚ)) :
    List (Nat × Nat) → Except (Nat × Nat) (List (Img ℚ))
  | [] => .ok []
  | k :: ks =>
    match List.lookup k d with
    | some v =>
      match gather d ks with
      | .ok vs => .ok (v :: vs)
      | .error e => .error e
    | none => .error k

/-- The errors `split_tiles` can raise: sklearn's `ValueError` when the
requested split would leave the train or the test side empty, and
Python's `KeyError` (carrying the offending key) from a failed dict
lookup. -/
inductive SplitError where
  /-- sklearn `ValueError` from `_validate_shuffle_split`: "the resulting
  train set will be empty" (or the test set). -/
  | valueError
  /-- Python `KeyError`, carrying the missing key. -/
  | keyError (k : Nat × Nat)
deriving DecidableEq

/-- Modelled from the external library: sklearn's
`train_test_split(xs, test_size=0.2)`.  The randomness is the shuffled
copy of the input list (the caller supplies it; theorems hypothesise that
it is a permutation).  With a float `test_size`, sklearn's
`_validate_shuffle_split` computes `n_test = ceil(0.2 * n)` and
`n_train = n - n_test`, and raises `ValueError` if either side would be
empty -- with `test_size=0.2` that happens exactly for `n` equal to 0 or
1.  Otherwise the test side is the first `n_test` elements of the
shuffled sequence and the train side is the rest. -/
def train_test_split_model (shuffled : List (Nat × Nat)) :
    Except SplitError (List (Nat × Nat) × List (Nat × Nat)) :=
  if shuffled.length - (shuffled.length + 4) / 5 = 0 ∨
      (shuffled.length + 4) / 5 = 0 then
    .error .valueError
  else
    .ok (shuffled.drop ((shuffled.length + 4) / 5),
      shuffled.take ((shuffled.length + 4) / 5))

/-- The six-component result of `split_tiles`. -/
structure SplitResult where
  train_indices : List (Nat × Nat)
  test_indices : List (Nat × Nat)
  sat_train : List (Img ℚ)
  veg_train : List (Img ℚ)
  sat_test : List (Img ℚ)
  veg_test : List (Img ℚ)

/-- `split_tiles` from `utils.py`: list the satellite dict's keys, split
them with `train_test_split` (the `shuffled` argument carries that call's
randomness; a degenerate size propagates sklearn's `ValueError`), then
gather `satellite_tiles[idx]` / `vegetation_tiles[idx]` for the train and
test key lists in program order; a missing key raises `KeyError` at the
first failing lookup. -/
def split_tiles (satellite_tiles vegetation_tiles : List ((Nat × Nat) × Img ℚ))
    (shuffled : List (Nat × Nat)) : Except SplitError SplitResult :=
  match train_test_split_model shuffled with
  | .error e => .error e
  | .ok p =>
    match gather satellite_tiles p.1 with
    | .error k => .error (.keyError k)
    | .ok sat_train =>
      match gather vegetation_tiles p.1 with
      | .error k => .error (.keyError k)
      | .ok veg_train =>
        match gather satellite_tiles p.2 with
        | .error k => .error (.keyError k)
        | .ok sat_test =>
          match gather vegetation_tiles p.2 with
          | .error k => .error (.keyError k)
          | .ok veg_test =>
            .ok ⟨p.1, p.2, sat_train, veg_train, sat_test, veg_test⟩

/-- Rectified linear unit. -/
noncomputable def relu (x : ℝ) : ℝ := max x 0

/-- The logistic sigmoid `1 / (1 + exp (-x))`. -/
noncomputable def sigmoid (x : ℝ) : ℝ := 1 / (1 + Real.exp (-x))

/-- Zero-padded access into a feature map, for `padding='same'`. -/
noncomputable def atPad (tIn : Img ℝ) (i j : Int) (ch : Nat) : ℝ :=
  if 0 ≤ i ∧ i < tIn.height ∧ 0 ≤ j ∧ j < tIn.width then
    tIn.data i.toNat j.toNat ch
  else
    0

/-- `Conv2D(filters, (3,3), activation=act, padding='same')`: spatial shape
unchanged, channel count becomes `filters`; each output value is the
activation of a bias plus the 3x3 cross-channel window sum. -/
noncomputable def conv3x3 (filters : Nat) (w : Nat → Nat → Nat → Nat → ℝ)
    (b : Nat → ℝ) (act : ℝ → ℝ) (tIn : Img ℝ) : Img ℝ :=
  ⟨tIn.height, tIn.width, filters, fun i j o =>
    act (b o + ∑ di ∈ Finset.range 3, ∑ dj ∈ Finset.range 3,
      ∑ ci ∈ Finset.range tIn.chans,
        w o di dj ci * atPad tIn ((i : Int) + di - 1) ((j : Int) + dj - 1) ci)⟩

/-- `Conv2D(filters, (1,1), activation=act)`: a pointwise projection. -/
noncomputable def conv1x1 (filters : Nat) (w : Nat → Nat → ℝ) (b : Nat → ℝ)
    (act : ℝ → ℝ) (tIn : Img ℝ) : Img ℝ :=
  ⟨tIn.height, tIn.width, filters, fun i j o =>
    act (b o + ∑ ci ∈ Finset.range tIn.chans, w o ci * tIn.data i j ci)⟩

/-- `MaxPooling2D(pool_size=(2,2))`: spatial dimensions are halved
(flooring), each value the max of a 2x2 window. -/
noncomputable def maxPool2 (tIn : Img ℝ) : Img ℝ :=
  ⟨tIn.height / 2, tIn.width / 2, tIn.chans, fun i j ch =>
    max (max (tIn.data (2 * i) (2 * j) ch) (tIn.data (2 * i) (2 * j + 1) ch))
      (max (tIn.data (2 * i + 1) (2 * j) ch) (tIn.data (2 * i + 1) (2 * j + 1) ch))⟩

/-- `UpSampling2D(size=(2,2))`: spatial dimensions doubled, nearest
neighbour repetition. -/
noncomputable def upSample2 (tIn : Img ℝ) : Img ℝ :=
  ⟨2 * tIn.height, 2 * tIn.width, tIn.chans, fun i j ch =>
    tIn.data (i / 2) (j / 2) ch⟩

/-- `concatenate([a, b], axis=3)`: channels are stacked (the spatial shape
is taken from the first argument; Keras requires them equal). -/
noncomputable def concatC (a b : Img ℝ) : Img ℝ :=
  ⟨a.height, a.width, a.chans + b.chans, fun i j ch =>
    if ch < a.chans then a.data i j ch else b.data i j (ch - a.chans)⟩

/-- The trainable parameters of the network, one weight/bias pair per
convolution, in layer order. -/
structure UNetWeights where
  w1 : Nat → Nat → Nat → Nat → ℝ
  b1 : Nat → ℝ
  w2 : Nat → Nat → Nat → Nat → ℝ
  b2 : Nat → ℝ
  w3 : Nat → Nat → Nat → Nat → ℝ
  b3 : Nat → ℝ
  w4 : Nat → Nat → Nat → Nat → ℝ
  b4 : Nat → ℝ
  w5 : Nat → Nat → Nat → Nat → ℝ
  b5 : Nat → ℝ
  wOut : Nat → Nat → ℝ
  bOut : Nat → ℝ

/-- `uncompiled_unet` from `model.py`, as a function of its parameters and
of the input feature map: conv(32)-pool-conv(64)-pool-conv(128), then
upsample-concat-conv(64), upsample-concat-conv(32), and a final 1x1
convolution to 1 channel with sigmoid activation. -/
noncomputable def uncompiled_unet (p : UNetWeights) (inputs : Img ℝ) : Img ℝ :=
  let conv1 := conv3x3 32 p.w1 p.b1 relu inputs
  let pool1 := maxPool2 conv1
  let conv2 := conv3x3 64 p.w2 p.b2 relu pool1
  let pool2 := maxPool2 conv2
  let conv3 := conv3x3 128 p.w3 p.b3 relu pool2
  let up4 := concatC (upSample2 conv3) conv2
  let conv4 := conv3x3 64 p.w4 p.b4 relu up4
  let up5 := concatC (upSample2 conv4) conv1
  let conv5 := conv3x3 32 p.w5 p.b5 relu up5
  conv1x1 1 p.wOut p.bOut sigmoid conv5

/-- A concrete 5 x 7 x 2 raster used to instantiate the Tiler theorems. -/
def imgC1 : Img ℚ := ⟨5, 7, 2, fun r c ch => (100 * r + 10 * c + ch : ℚ)⟩

/-- A concrete 448 x 448 single-band raster for the round-trip instance. -/
def imgC2 : Img ℚ := ⟨448, 448, 1, fun r c _ => (448 * r + c : ℚ)⟩

/-- A 2 x 2 single-band tile holding the constant 1. -/
def tileOne : Img ℚ := ⟨2, 2, 1, fun _ _ _ => 1⟩

/-- A 2 x 2 single-band tile holding the constant 2. -/
def tileTwo : Img ℚ := ⟨2, 2, 1, fun _ _ _ => 2⟩

/-- Two equal-size tiles whose keyed regions overlap at pixel (1, 1). -/
def tilesOverlap : List ((Nat × Nat) × Img ℚ) := [((0, 0), tileOne), ((1, 1), tileTwo)]

/-- A singleton tile dictionary: one 2 x 2 tile at the origin. -/
def tilesSingle : List ((Nat × Nat) × Img ℚ) := [((0, 0), tileOne)]

/-- A 1 x 1 single-band tile holding the constant 7. -/
def tileSeven : Img ℚ := ⟨1, 1, 1, fun _ _ _ => 7⟩

/-- A 1 x 1 tile keyed out of range of a 1 x 1 output. -/
def tilesOut1 : List ((Nat × Nat) × Img ℚ) := [((1, 0), tileSeven)]

/-- A one-tile satellite dictionary. -/
def satOne : List ((Nat × Nat) × Img ℚ) := [((0, 0), tileSeven)]

/-- A vegetation dictionary with a strictly larger key space than `satOne`. -/
def vegTwo : List ((Nat × Nat) × Img ℚ) := [((0, 0), tileSeven), ((0, 1), tileOne)]

/-- A two-tile satellite dictionary. -/
def satPair : List ((Nat × Nat) × Img ℚ) := [((0, 0), tileSeven), ((0, 1), tileOne)]

/-- A vegetation dictionary matching the key space of `satPair`. -/
def vegPair : List ((Nat × Nat) × Img ℚ) := [((0, 0), tileTwo), ((0, 1), tileOne)]

/-- A vegetation dictionary with a strictly larger key space than
`satPair` (the extra key (1, 0)). -/
def vegThree : List ((Nat × Nat) × Img ℚ) :=
  [((0, 0), tileTwo), ((0, 1), tileOne), ((1, 0), tileSeven)]

/-- A six-tile satellite dictionary for the split-size instance. -/
def satSix : List ((Nat × Nat) × Img ℚ) :=
  [((0, 0), tileSeven), ((0, 2), tileSeven), ((0, 4), tileSeven),
   ((2, 0), tileSeven), ((2, 2), tileSeven), ((2, 4), tileSeven)]

/-- A 3 x 3 single-band raster, smaller than the tile size 5 used with it. -/
def imgSmall : Img ℚ := ⟨3, 3, 1, fun r c _ => (10 * r + c : ℚ)⟩

/-- The all-zero parameter set of the network. -/
noncomputable def zeroWeights : UNetWeights :=
  ⟨fun _ _ _ _ => 0, fun _ => 0, fun _ _ _ _ => 0, fun _ => 0, fun _ _ _ _ => 0,
   fun _ => 0, fun _ _ _ _ => 0, fun _ => 0, fun _ _ _ _ => 0, fun _ => 0,
   fun _ _ => 0, fun _ => 0⟩

/-- A concrete 4 x 4 x 4 zero input for the network. -/
noncomputable def inputZero : Img ℝ := ⟨4, 4, 4, fun _ _ _ => 0⟩

theorem filterMap_eq_map_of_some {α β : Type} {l : List α} {f : α → Option β}
    {g : α → β} (h : ∀ x ∈ l, f x = some (g x)) : l.filterMap f = l.map g := by
  induction l with
  | nil => rfl
  | cons a l ih =>
    simp only [List.filterMap_cons, h a (List.mem_cons_self a l), List.map_cons]
    exact congrArg _ (ih fun x hx => h x (List.mem_cons_of_mem a hx))

theorem filterMap_eq_nil_of_none {α β : Type} {l : List α} {f : α → Option β}
    (h : ∀ x ∈ l, f x = none) : l.filterMap f = [] := by
  induction l with
  | nil => rfl
  | cons a l ih =>
    simp only [List.filterMap_cons, h a (List.mem_cons_self a l)]
    exact ih fun x hx => h x (List.mem_cons_of_mem a hx)

theorem filterMap_range_lt {β : Type} (n m : Nat) (g : Nat → β) (h : m ≤ n) :
    (List.range n).filterMap (fun k => if k < m then some (g k) else none) =
      (List.range m).map g := by
  induction n with
  | zero =>
    have : m = 0 := Nat.le_zero.mp h
    subst this; rfl
  | succ n ih =>
    rcases Nat.lt_or_ge n m with hlt | hge
    · have hm : m = n + 1 := Nat.le_antisymm h hlt
      subst hm
      exact filterMap_eq_map_of_some fun x hx =>
        if_pos (List.mem_range.mp hx)
    · rw [List.range_succ, List.filterMap_append, ih hge]
      have : [n].filterMap (fun k => if k < m then some (g k) else none) = [] :=
        filterMap_eq_nil_of_none fun x hx => by
          have : x = n := List.mem_singleton.mp hx
          subst this
          exact if_neg (Nat.not_lt.mpr hge)
      rw [this, List.append_nil]

theorem flatMap_eq_nil_of_nil {α β : Type} {l : List α} {f : α → List β}
    (h : ∀ x ∈ l, f x = []) : l.flatMap f = [] := by
  induction l with
  | nil => rfl
  | cons a l ih =>
    simp only [List.flatMap_cons, h a (List.mem_cons_self a l), List.nil_append]
    exact ih fun x hx => h x (List.mem_cons_of_mem a hx)

theorem flatMap_range_lt {β : Type} (n m : Nat) (g : Nat → List β) (h : m ≤ n) :
    (List.range n).flatMap (fun k => if k < m then g k else []) =
      (List.range m).flatMap g := by
  induction n with
  | zero =>
    have : m = 0 := Nat.le_zero.mp h
    subst this; rfl
  | succ n ih =>
    rcases Nat.lt_or_ge n m with hlt | hge
    · have hm : m = n + 1 := Nat.le_antisymm h hlt
      subst hm
      exact List.flatMap_congr fun x hx => if_pos (List.mem_range.mp hx)
    · rw [List.range_succ, List.flatMap_append, ih hge]
      have : [n].flatMap (fun k => if k < m then g k else []) = [] :=
        flatMap_eq_nil_of_nil fun x hx => by
          have : x = n := List.mem_singleton.mp hx
          subst this
          exact if_neg (Nat.not_lt.mpr hge)
      rw [this, List.append_nil]

theorem length_flatMap_range_map {β : Type} (n m : Nat) (g : Nat → Nat → β) :
    ((List.range n).flatMap fun a => (List.range m).map (g a)).length = n * m := by
  induction n with
  | zero => simp
  | succ n ih =>
    rw [List.range_succ, List.flatMap_append, List.length_append, ih]
    simp [Nat.succ_mul]

theorem row_kept_iff (img : Img ℚ) (T : Nat) (hT : 0 < T) (a : Nat) :
    min T (img.height - a * T) = T ↔ a < img.height / T := by
  rw [min_eq_left_iff, show (a < img.height / T ↔ a + 1 ≤ img.height / T) from Iff.rfl,
    Nat.le_div_iff_mul_le hT, Nat.succ_mul]
  generalize a * T = m
  omega

theorem col_kept_iff (img : Img ℚ) (T : Nat) (hT : 0 < T) (b : Nat) :
    min T (img.width - b * T) = T ↔ b < img.width / T := by
  rw [min_eq_left_iff, show (b < img.width / T ↔ b + 1 ≤ img.width / T) from Iff.rfl,
    Nat.le_div_iff_mul_le hT, Nat.succ_mul]
  generalize b * T = m
  omega

/-- Closed form of the Tiler: with a positive tile size, the produced
dictionary is exactly the row-major enumeration of the full (untruncated)
tiles, whose offsets are the multiples `a * T < (height/T) * T`,
`b * T < (width/T) * T`. -/
theorem cut_into_tiles_canonical (img : Img ℚ) (T : Nat) (hT : 0 < T) :
    cut_into_tiles img T =
      (List.range (img.height / T)).flatMap fun a =>
        (List.range (img.width / T)).map fun b =>
          ((a * T, b * T), npSlice img (a * T) (b * T) T) := by
  have hceilH : img.height / T ≤ (img.height + T - 1) / T :=
    Nat.div_le_div_right (by omega)
  have hceilW : img.width / T ≤ (img.width + T - 1) / T :=
    Nat.div_le_div_right (by omega)
  unfold cut_into_tiles pyRange
  rw [List.flatMap_map]
  have hinner : ∀ a : Nat,
      ((List.range ((img.width + T - 1) / T)).map (· * T)).filterMap
        (fun j =>
          let tile := npSlice img (a * T) j T
          if tile.height = T ∧ tile.width = T then some ((a * T, j), tile) else none) =
      if a < img.height / T then
        (List.range (img.width / T)).map fun b =>
          ((a * T, b * T), npSlice img (a * T) (b * T) T)
      else [] := by
    intro a
    rw [List.filterMap_map]
    by_cases ha : a < img.height / T
    · rw [if_pos ha, ← filterMap_range_lt ((img.width + T - 1) / T) (img.width / T)
        (fun b => ((a * T, b * T), npSlice img (a * T) (b * T) T)) hceilW]
      refine List.filterMap_congr fun b _ => ?_
      show (if min T (img.height - a * T) = T ∧ min T (img.width - b * T) = T then
          some ((a * T, b * T), npSlice img (a * T) (b * T) T) else none) = _
      refine if_congr ?_ rfl rfl
      rw [row_kept_iff img T hT a, col_kept_iff img T hT b]
      exact and_iff_right ha
    · rw [if_neg ha]
      refine filterMap_eq_nil_of_none fun b _ => ?_
      show (if min T (img.height - a * T) = T ∧ min T (img.width - b * T) = T then
          some ((a * T, b * T), npSlice img (a * T) (b * T) T) else none) = none
      refine if_neg fun hc => ha ?_
      exact (row_kept_iff img T hT a).mp hc.1
  calc
    (List.range ((img.height + T - 1) / T)).flatMap
        (fun a =>
          ((List.range ((img.width + T - 1) / T)).map (· * T)).filterMap fun j =>
            let tile := npSlice img (a * T) j T
            if tile.height = T ∧ tile.width = T then some ((a * T, j), tile) else none) =
      (List.range ((img.height + T - 1) / T)).flatMap
        (fun a =>
          if a < img.height / T then
            (List.range (img.width / T)).map fun b =>
              ((a * T, b * T), npSlice img (a * T) (b * T) T)
          else []) := List.flatMap_congr fun a _ => hinner a
    _ = (List.range (img.height / T)).flatMap fun a =>
          (List.range (img.width / T)).map fun b =>
            ((a * T, b * T), npSlice img (a * T) (b * T) T) :=
      flatMap_range_lt _ _ _ hceilH

theorem foldlM_assign_ok (H W t : Nat) (tiles : List ((Nat × Nat) × Img ℚ))
    (h : ∀ kt ∈ tiles, assignCond H W t kt) (init : Nat → Nat → ℚ) :
    tiles.foldlM (fun full kt => assignSlice H W t full kt) init =
      .ok (tiles.foldl (applyTile H W t) init) := by
  induction tiles generalizing init with
  | nil => rfl
  | cons a l ih =>
    rw [List.foldlM_cons, List.foldl_cons, assignSlice,
      if_pos (h a (List.mem_cons_self a l))]
    exact ih (fun kt hkt => h kt (List.mem_cons_of_mem a hkt)) _

theorem foldlM_assign_err (H W t : Nat) (tiles : List ((Nat × Nat) × Img ℚ))
    (h : ∃ kt ∈ tiles, ¬ assignCond H W t kt) (init : Nat → Nat → ℚ) :
    tiles.foldlM (fun full kt => assignSlice H W t full kt) init =
      .error .valueError := by
  induction tiles generalizing init with
  | nil => exact absurd h (by simp)
  | cons a l ih =>
    rw [List.foldlM_cons]
    by_cases ha : assignCond H W t a
    · rw [assignSlice, if_pos ha]
      have hl : ∃ kt ∈ l, ¬ assignCond H W t kt := by
        obtain ⟨kt, hmem, hkt⟩ := h
        rcases List.mem_cons.mp hmem with rfl | hmem2
        · exact absurd ha hkt
        · exact ⟨kt, hmem2, hkt⟩
      exact ih hl _
    · rw [assignSlice, if_neg ha]
      rfl

theorem foldl_apply_untouched (H W t : Nat) (tiles : List ((Nat × Nat) × Img ℚ))
    (r c : Nat) (h : ∀ kt ∈ tiles, ¬ inRegion H W t kt.1.1 kt.1.2 r c)
    (init : Nat → Nat → ℚ) :
    tiles.foldl (applyTile H W t) init r c = init r c := by
  induction tiles generalizing init with
  | nil => rfl
  | cons a l ih =>
    rw [List.foldl_cons, ih (fun kt hkt => h kt (List.mem_cons_of_mem a hkt))]
    exact if_neg (h a (List.mem_cons_self a l))

theorem foldl_apply_covered (H W t : Nat) (tiles : List ((Nat × Nat) × Img ℚ))
    (r c : Nat)
    (huc : ∀ kt ∈ tiles, ∀ kt2 ∈ tiles, inRegion H W t kt.1.1 kt.1.2 r c →
      inRegion H W t kt2.1.1 kt2.1.2 r c → kt = kt2)
    (e : (Nat × Nat) × Img ℚ) (he : e ∈ tiles)
    (hcov : inRegion H W t e.1.1 e.1.2 r c) (init : Nat → Nat → ℚ) :
    tiles.foldl (applyTile H W t) init r c =
      e.2.data (if e.2.height = 1 then 0 else r - e.1.1)
        (if e.2.width = 1 then 0 else c - e.1.2) 0 := by
  induction tiles generalizing init with
  | nil => exact absurd he (List.not_mem_nil e)
  | cons a l ih =>
    rw [List.foldl_cons]
    by_cases hl : ∃ kt ∈ l, inRegion H W t kt.1.1 kt.1.2 r c
    · obtain ⟨e2, he2, hcov2⟩ := hl
      have he2top : e2 ∈ a :: l := List.mem_cons_of_mem a he2
      have : e = e2 := huc e he e2 he2top hcov hcov2
      subst this
      exact ih (fun kt hkt kt2 hkt2 => huc kt (List.mem_cons_of_mem a hkt)
        kt2 (List.mem_cons_of_mem a hkt2)) he2 _
    · push_neg at hl
      rw [foldl_apply_untouched H W t l r c hl]
      have hea : e = a := by
        rcases List.mem_cons.mp he with rfl | hmem
        · rfl
        · exact absurd hcov (hl e hmem)
      subst hea
      exact if_pos hcov

theorem jahit_tiles_ok_cons (H W t : Nat) (t0 : (Nat × Nat) × Img ℚ)
    (rest : List ((Nat × Nat) × Img ℚ)) (hh : t0.2.height = t)
    (hcond : ∀ kt ∈ t0 :: rest, assignCond H W t kt) :
    jahit_tiles (t0 :: rest) [H, W] =
      .ok ((t0 :: rest).foldl (applyTile H W t) fun _ _ => (0 : ℚ)) := by
  show (t0 :: rest).foldlM
      (fun full kt => assignSlice ([H, W].getD 0 0) ([H, W].getD 1 0) t0.2.height full kt)
      (fun _ _ => (0 : ℚ)) = _
  rw [show [H, W].getD 0 0 = H from rfl, show [H, W].getD 1 0 = W from rfl, hh]
  exact foldlM_assign_ok H W t (t0 :: rest) hcond _

theorem jahit_tiles_err_cons (H W t : Nat) (t0 : (Nat × Nat) × Img ℚ)
    (rest : List ((Nat × Nat) × Img ℚ)) (hh : t0.2.height = t)
    (hbad : ∃ kt ∈ t0 :: rest, ¬ assignCond H W t kt) :
    jahit_tiles (t0 :: rest) [H, W] = .error .valueError := by
  show (t0 :: rest).foldlM
      (fun full kt => assignSlice ([H, W].getD 0 0) ([H, W].getD 1 0) t0.2.height full kt)
      (fun _ _ => (0 : ℚ)) = _
  rw [show [H, W].getD 0 0 = H from rfl, show [H, W].getD 1 0 = W from rfl, hh]
  exact foldlM_assign_err H W t (t0 :: rest) hbad _

theorem jahit_tiles_chan_ignored (tiles : List ((Nat × Nat) × Img ℚ))
    (H W C : Nat) : jahit_tiles tiles [H, W, C] = jahit_tiles tiles [H, W] := by
  cases tiles <;> rfl

theorem gather_ok_getElem (d : List ((Nat × Nat) × Img ℚ))
    (ks : List (Nat × Nat)) (vs : List (Img ℚ)) (h : gather d ks = .ok vs) :
    ∀ n : Nat, vs[n]? = ks[n]?.bind fun k => List.lookup k d := by
  induction ks generalizing vs with
  | nil =>
    intro n
    have hv : ([] : List (Img ℚ)) = vs := Except.ok.inj h
    subst hv
    simp
  | cons k ks ih =>
    intro n
    rcases hl : List.lookup k d with _ | v
    · rw [gather, hl] at h
      exact absurd h (by simp)
    · rw [gather, hl] at h
      rcases hg : gather d ks with e | vs2
      · rw [hg] at h
        exact absurd h (by simp)
      · rw [hg] at h
        have hv : vs = v :: vs2 := by
          have := Except.ok.inj h
          exact this.symm
        subst hv
        cases n with
        | zero => simpa using hl.symm
        | succ m => simpa using ih vs2 hg m

theorem gather_ok_of_present (d : List ((Nat × Nat) × Img ℚ))
    (ks : List (Nat × Nat)) (h : ∀ k ∈ ks, (List.lookup k d).isSome) :
    ∃ vs, gather d ks = .ok vs := by
  induction ks with
  | nil => exact ⟨[], rfl⟩
  | cons k ks ih =>
    obtain ⟨v, hv⟩ := Option.isSome_iff_exists.mp (h k (List.mem_cons_self k ks))
    obtain ⟨vs, hvs⟩ := ih fun x hx => h x (List.mem_cons_of_mem k hx)
    exact ⟨v :: vs, by rw [gather, hv, hvs]⟩

theorem gather_ok_present (d : List ((Nat × Nat) × Img ℚ))
    (ks : List (Nat × Nat)) (vs : List (Img ℚ)) (h : gather d ks = .ok vs) :
    ∀ k ∈ ks, (List.lookup k d).isSome := by
  induction ks generalizing vs with
  | nil => simp
  | cons k ks ih =>
    intro x hx
    rcases hl : List.lookup k d with _ | v
    · rw [gather, hl] at h
      exact absurd h (by simp)
    · rw [gather, hl] at h
      rcases hg : gather d ks with e | vs2
      · rw [hg] at h
        exact absurd h (by simp)
      · rcases List.mem_cons.mp hx with rfl | hx2
        · rw [hl]; rfl
        · exact ih vs2 hg x hx2

theorem gather_err_missing (d : List ((Nat × Nat) × Img ℚ))
    (ks : List (Nat × Nat)) (e : Nat × Nat) (h : gather d ks = .error e) :
    e ∈ ks ∧ List.lookup e d = none := by
  induction ks with
  | nil => exact absurd h (by simp [gather])
  | cons k ks ih =>
    rcases hl : List.lookup k d with _ | v
    · rw [gather, hl] at h
      have : e = k := by simpa using h.symm
      subst this
      exact ⟨List.mem_cons_self e ks, hl⟩
    · rw [gather, hl] at h
      rcases hg : gather d ks with e2 | vs2
      · rw [hg] at h
        have : e2 = e := by simpa using h
        subst this
        obtain ⟨hmem, hnone⟩ := ih hg
        exact ⟨List.mem_cons_of_mem k hmem, hnone⟩
      · rw [hg] at h
        exact absurd h (by simp)

theorem gather_err_exists (d : List ((Nat × Nat) × Img ℚ))
    (ks : List (Nat × Nat)) (h : ∃ k ∈ ks, List.lookup k d = none) :
    ∃ e, gather d ks = .error e ∧ e ∈ ks ∧ List.lookup e d = none := by
  rcases hg : gather d ks with e | vs
  · exact ⟨e, rfl, gather_err_missing d ks e hg⟩
  · obtain ⟨k, hmem, hnone⟩ := h
    have := gather_ok_present d ks vs hg k hmem
    rw [hnone] at this
    exact absurd this (by simp)

theorem tts_ok_of_two_le (shuffled : List (Nat × Nat))
    (h2 : 2 ≤ shuffled.length) :
    train_test_split_model shuffled =
      .ok (shuffled.drop ((shuffled.length + 4) / 5),
        shuffled.take ((shuffled.length + 4) / 5)) := by
  rw [train_test_split_model]
  exact if_neg (by omega)

theorem tts_ok_pair (shuffled : List (Nat × Nat))
    (p : List (Nat × Nat) × List (Nat × Nat))
    (h : train_test_split_model shuffled = .ok p) :
    p = (shuffled.drop ((shuffled.length + 4) / 5),
      shuffled.take ((shuffled.length + 4) / 5)) := by
  rw [train_test_split_model] at h
  by_cases hc : shuffled.length - (shuffled.length + 4) / 5 = 0 ∨
      (shuffled.length + 4) / 5 = 0
  · rw [if_pos hc] at h
    exact absurd h (by simp)
  · rw [if_neg hc] at h
    exact (Except.ok.inj h).symm

theorem split_tiles_eq_err (sat veg : List ((Nat × Nat) × Img ℚ))
    (shuffled : List (Nat × Nat)) (e : SplitError)
    (htts : train_test_split_model shuffled = .error e) :
    split_tiles sat veg shuffled = .error e := by
  unfold split_tiles
  rw [htts]

theorem split_tiles_eq_ok (sat veg : List ((Nat × Nat) × Img ℚ))
    (shuffled : List (Nat × Nat)) (tr te : List (Nat × Nat))
    (htts : train_test_split_model shuffled = .ok (tr, te)) :
    split_tiles sat veg shuffled =
      match gather sat tr with
      | .error k => .error (.keyError k)
      | .ok st =>
        match gather veg tr with
        | .error k => .error (.keyError k)
        | .ok vt =>
          match gather sat te with
          | .error k => .error (.keyError k)
          | .ok ste =>
            match gather veg te with
            | .error k => .error (.keyError k)
            | .ok vte => .ok ⟨tr, te, st, vt, ste, vte⟩ := by
  unfold split_tiles
  rw [htts]

theorem ceil_fifth_near_round (n : Nat) :
    (((n + 4) / 5 : Nat) - round ((n : ℚ) / 5) : ℤ).natAbs ≤ 1 := by
  obtain ⟨q, r, hr, rfl⟩ : ∃ q r : Nat, r < 5 ∧ n = 5 * q + r :=
    ⟨n / 5, n % 5, Nat.mod_lt n (by norm_num), (Nat.div_add_mod n 5).symm⟩
  have hsplit : ((5 * q + r : Nat) : ℚ) / 5 = (r : ℚ) / 5 + (q : ℤ) := by
    push_cast
    ring
  rw [hsplit, round_add_int]
  have hceil : ((5 * q + r + 4) / 5 : Nat) = q + (r + 4) / 5 := by
    omega
  rw [hceil]
  interval_cases r <;>
    simp only [Nat.cast_ofNat, Nat.cast_zero, Nat.cast_one] <;>
    norm_num [round_eq] <;>
    omega

/-- C1: for every raster of shape (H, W, C) and positive tile size T, the
Tiler's key list is exactly the row-major enumeration of
{(a*T, b*T) : a < H/T, b < W/T} (hence the tile count is (H/T)*(W/T));
every kept tile has shape (T, T, C), lies entirely inside the raster (so
boundary-truncated patches are absent), and its data is the sub-array of
the input starting at its key. -/
theorem C1_cut_into_tiles_spec (img : Img ℚ) (T : Nat) (hT : 0 < T) :
    keysOf (cut_into_tiles img T) =
      ((List.range (img.height / T)).flatMap fun a =>
        (List.range (img.width / T)).map fun b => (a * T, b * T)) ∧
    (cut_into_tiles img T).length = (img.height / T) * (img.width / T) ∧
    (∀ kt ∈ cut_into_tiles img T,
      kt.2.height = T ∧ kt.2.width = T ∧ kt.2.chans = img.chans ∧
      kt.1.1 + T ≤ img.height ∧ kt.1.2 + T ≤ img.width ∧
      ∀ r c ch, kt.2.data r c ch = img.data (kt.1.1 + r) (kt.1.2 + c) ch) := by
  have hc := cut_into_tiles_canonical img T hT
  refine ⟨?_, ?_, ?_⟩
  · rw [keysOf, hc]
    simp only [List.map_flatMap, List.map_map]
    exact List.flatMap_congr fun a _ => List.map_congr_left fun b _ => rfl
  · rw [hc]
    exact length_flatMap_range_map _ _ _
  · intro kt hkt
    rw [hc] at hkt
    simp only [List.mem_flatMap, List.mem_map, List.mem_range] at hkt
    obtain ⟨a, ha, b, hb, rfl⟩ := hkt
    have hhmin : min T (img.height - a * T) = T := (row_kept_iff img T hT a).mpr ha
    have hwmin : min T (img.width - b * T) = T := (col_kept_iff img T hT b).mpr hb
    have hha : a * T + T ≤ img.height := by
      have := min_eq_left_iff.mp hhmin
      generalize a * T = m at this ⊢
      omega
    have hwb : b * T + T ≤ img.width := by
      have := min_eq_left_iff.mp hwmin
      generalize b * T = m at this ⊢
      omega
    exact ⟨hhmin, hwmin, rfl, hha, hwb, fun r c ch => rfl⟩

/-- Witness for C1 at a concrete raster (5 x 7 x 2, tile size 2). -/
theorem C1_cut_into_tiles_spec_witness :
    0 < 2 ∧
    (keysOf (cut_into_tiles imgC1 2) =
      ((List.range (imgC1.height / 2)).flatMap fun a =>
        (List.range (imgC1.width / 2)).map fun b => (a * 2, b * 2)) ∧
    (cut_into_tiles imgC1 2).length = (imgC1.height / 2) * (imgC1.width / 2) ∧
    (∀ kt ∈ cut_into_tiles imgC1 2,
      kt.2.height = 2 ∧ kt.2.width = 2 ∧ kt.2.chans = imgC1.chans ∧
      kt.1.1 + 2 ≤ imgC1.height ∧ kt.1.2 + 2 ≤ imgC1.width ∧
      ∀ r c ch, kt.2.data r c ch = imgC1.data (kt.1.1 + r) (kt.1.2 + c) ch)) :=
  ⟨by decide, C1_cut_into_tiles_spec imgC1 2 (by decide)⟩

theorem div_eq_of_between {T a r : Nat} (hT : 0 < T) (h1 : a * T ≤ r)
    (h2 : r < a * T + T) : r / T = a := by
  have l1 : a ≤ r / T := (Nat.le_div_iff_mul_le hT).mpr h1
  have l2 : r / T < a + 1 := by
    rw [Nat.div_lt_iff_lt_mul hT, Nat.succ_mul]
    exact h2
  omega

theorem cut_mem_spec (img : Img ℚ) (T : Nat) (hT : 0 < T)
    (kt : (Nat × Nat) × Img ℚ) (hkt : kt ∈ cut_into_tiles img T) :
    ∃ a b : Nat, a < img.height / T ∧ b < img.width / T ∧
      kt = ((a * T, b * T), npSlice img (a * T) (b * T) T) ∧
      kt.2.height = T ∧ kt.2.width = T ∧
      kt.1.1 + T ≤ img.height ∧ kt.1.2 + T ≤ img.width := by
  rw [cut_into_tiles_canonical img T hT] at hkt
  simp only [List.mem_flatMap, List.mem_map, List.mem_range] at hkt
  obtain ⟨a, ha, b, hb, hkteq⟩ := hkt
  subst hkteq
  have hhmin : min T (img.height - a * T) = T := (row_kept_iff img T hT a).mpr ha
  have hwmin : min T (img.width - b * T) = T := (col_kept_iff img T hT b).mpr hb
  refine ⟨a, b, ha, hb, rfl, hhmin, hwmin, ?_, ?_⟩
  · show a * T + T ≤ img.height
    have := min_eq_left_iff.mp hhmin
    generalize a * T = m at this ⊢
    omega
  · show b * T + T ≤ img.width
    have := min_eq_left_iff.mp hwmin
    generalize b * T = m at this ⊢
    omega

theorem cut_assignCond (img : Img ℚ) (T : Nat) (hT : 0 < T)
    (kt : (Nat × Nat) × Img ℚ) (hkt : kt ∈ cut_into_tiles img T) :
    assignCond img.height img.width T kt := by
  obtain ⟨a, b, ha, hb, hkteq, hh, hw, hbh, hbw⟩ := cut_mem_spec img T hT kt hkt
  constructor
  · exact Or.inl (by rw [hh]; exact (min_eq_left (by omega)).symm)
  · exact Or.inl (by rw [hw]; exact (min_eq_left (by omega)).symm)

theorem cut_unique_cover (img : Img ℚ) (T : Nat) (hT : 0 < T) (r c : Nat) :
    ∀ kt ∈ cut_into_tiles img T, ∀ kt2 ∈ cut_into_tiles img T,
      inRegion img.height img.width T kt.1.1 kt.1.2 r c →
      inRegion img.height img.width T kt2.1.1 kt2.1.2 r c → kt = kt2 := by
  intro kt hkt kt2 hkt2 hcv hcv2
  obtain ⟨a, b, ha, hb, hkteq, hh, hw, hbh, hbw⟩ := cut_mem_spec img T hT kt hkt
  obtain ⟨a2, b2, ha2, hb2, hkteq2, hh2, hw2, hbh2, hbw2⟩ :=
    cut_mem_spec img T hT kt2 hkt2
  have hbha : a * T + T ≤ img.height := by rw [hkteq] at hbh; exact hbh
  have hbwb : b * T + T ≤ img.width := by rw [hkteq] at hbw; exact hbw
  have hbha2 : a2 * T + T ≤ img.height := by rw [hkteq2] at hbh2; exact hbh2
  have hbwb2 : b2 * T + T ≤ img.width := by rw [hkteq2] at hbw2; exact hbw2
  have hcva : inRegion img.height img.width T (a * T) (b * T) r c := by
    rw [hkteq] at hcv
    exact hcv
  have hcva2 : inRegion img.height img.width T (a2 * T) (b2 * T) r c := by
    rw [hkteq2] at hcv2
    exact hcv2
  rw [inRegion] at hcva hcva2
  have hm1 : min T (img.height - a * T) = T := min_eq_left (by omega)
  have hm2 : min T (img.height - a2 * T) = T := min_eq_left (by omega)
  have hm3 : min T (img.width - b * T) = T := min_eq_left (by omega)
  have hm4 : min T (img.width - b2 * T) = T := min_eq_left (by omega)
  rw [hm1, hm3] at hcva
  rw [hm2, hm4] at hcva2
  have e1 : r / T = a := div_eq_of_between hT hcva.1 hcva.2.1
  have e2 : r / T = a2 := div_eq_of_between hT hcva2.1 hcva2.2.1
  have e3 : c / T = b := div_eq_of_between hT hcva.2.2.1 hcva.2.2.2
  have e4 : c / T = b2 := div_eq_of_between hT hcva2.2.2.1 hcva2.2.2.2
  have haa : a = a2 := by omega
  have hbb : b = b2 := by omega
  rw [hkteq, hkteq2, haa, hbb]

/-- C2: round-trip.  For every single-band raster whose height and width
are exact multiples of the positive tile size T, stitching the TileSet
produced by the Tiler into an (H, W) target reproduces the raster's band-0
content at every covered pixel (with exact multiples the covered region is
the whole raster).  Instantiated at H = W = 448, T = 224 in the witness,
where the four keys are (0,0), (0,224), (224,0), (224,224). -/
theorem C2_roundtrip (img : Img ℚ) (T : Nat) (hT : 0 < T) (hch : img.chans = 1)
    (hH : T ∣ img.height) (hW : T ∣ img.width) :
    ∀ r c : Nat, r < img.height → c < img.width →
      evalAt (jahit_tiles (cut_into_tiles img T) [img.height, img.width]) r c =
        some (img.data r c 0) := by
  intro r c hr hc
  have ha0 : r / T < img.height / T := by
    obtain ⟨A, hA⟩ := hH
    rw [hA, Nat.mul_div_cancel_left A hT, Nat.div_lt_iff_lt_mul hT]
    rw [hA, Nat.mul_comm] at hr
    exact hr
  have hb0 : c / T < img.width / T := by
    obtain ⟨B, hB⟩ := hW
    rw [hB, Nat.mul_div_cancel_left B hT, Nat.div_lt_iff_lt_mul hT]
    rw [hB, Nat.mul_comm] at hc
    exact hc
  have he : ((r / T * T, c / T * T), npSlice img (r / T * T) (c / T * T) T) ∈
      cut_into_tiles img T := by
    rw [cut_into_tiles_canonical img T hT]
    simp only [List.mem_flatMap, List.mem_map, List.mem_range]
    exact ⟨r / T, ha0, c / T, hb0, rfl⟩
  have hfitH : r / T * T + T ≤ img.height := by
    have : r / T + 1 ≤ img.height / T := ha0
    have := (Nat.le_div_iff_mul_le hT).mp this
    rw [Nat.succ_mul] at this
    have hdiv : img.height / T * T ≤ img.height := Nat.div_mul_le_self _ _
    omega
  have hfitW : c / T * T + T ≤ img.width := by
    have : c / T + 1 ≤ img.width / T := hb0
    have := (Nat.le_div_iff_mul_le hT).mp this
    rw [Nat.succ_mul] at this
    have hdiv : img.width / T * T ≤ img.width := Nat.div_mul_le_self _ _
    omega
  have hdm1 : r / T * T + r % T = r := Nat.div_add_mod' r T
  have hdm2 : c / T * T + c % T = c := Nat.div_add_mod' c T
  have hml1 : r % T < T := Nat.mod_lt r hT
  have hml2 : c % T < T := Nat.mod_lt c hT
  have hcov : inRegion img.height img.width T (r / T * T) (c / T * T) r c := by
    rw [inRegion, min_eq_left (by omega), min_eq_left (by omega)]
    refine ⟨Nat.div_mul_le_self r T, by omega, Nat.div_mul_le_self c T, by omega⟩
  rcases hcut : cut_into_tiles img T with _ | ⟨t0, rest⟩
  · rw [hcut] at he
    exact absurd he (List.not_mem_nil _)
  · have hmemt0 : t0 ∈ cut_into_tiles img T := by
      rw [hcut]
      exact List.mem_cons_self t0 rest
    obtain ⟨a0, b0, _, _, _, ht0h, _⟩ := cut_mem_spec img T hT t0 hmemt0
    have hconds : ∀ kt ∈ t0 :: rest, assignCond img.height img.width T kt := by
      intro kt hkt
      exact cut_assignCond img T hT kt (hcut ▸ hkt)
    rw [jahit_tiles_ok_cons img.height img.width T t0 rest ht0h hconds]
    rw [evalAt]
    refine congrArg some ?_
    have huc := cut_unique_cover img T hT r c
    rw [hcut] at huc he
    rw [foldl_apply_covered img.height img.width T (t0 :: rest) r c huc
      ((r / T * T, c / T * T), npSlice img (r / T * T) (c / T * T) T) he hcov]
    show (npSlice img (r / T * T) (c / T * T) T).data
        (if (npSlice img (r / T * T) (c / T * T) T).height = 1 then 0
          else r - r / T * T)
        (if (npSlice img (r / T * T) (c / T * T) T).width = 1 then 0
          else c - c / T * T) 0 = img.data r c 0
    have hsh : (npSlice img (r / T * T) (c / T * T) T).height =
        min T (img.height - r / T * T) := rfl
    have hsw : (npSlice img (r / T * T) (c / T * T) T).width =
        min T (img.width - c / T * T) := rfl
    have hshT : (npSlice img (r / T * T) (c / T * T) T).height = T := by
      rw [hsh]
      exact min_eq_left (by omega)
    have hswT : (npSlice img (r / T * T) (c / T * T) T).width = T := by
      rw [hsw]
      exact min_eq_left (by omega)
    rcases Nat.eq_or_lt_of_le hT with hT1 | hT2
    · have hT1 : T = 1 := hT1.symm
      subst hT1
      have hr0 : r - r / 1 * 1 = 0 := by omega
      have hc0 : c - c / 1 * 1 = 0 := by omega
      rw [hshT, hswT, if_pos rfl, if_pos rfl]
      show img.data (r / 1 * 1 + 0) (c / 1 * 1 + 0) 0 = img.data r c 0
      have e1 : r / 1 * 1 + 0 = r := by omega
      have e2 : c / 1 * 1 + 0 = c := by omega
      rw [e1, e2]
    · rw [if_neg (by rw [hshT]; omega), if_neg (by rw [hswT]; omega)]
      show img.data (r / T * T + (r - r / T * T)) (c / T * T + (c - c / T * T)) 0 =
        img.data r c 0
      have e1 : r / T * T + (r - r / T * T) = r := by omega
      have e2 : c / T * T + (c - c / T * T) = c := by omega
      rw [e1, e2]

/-- Witness for C2 at the concrete 448 x 448 single-band raster with tile
size 224: exactly the four keys (0,0), (0,224), (224,0), (224,224), and
exact reconstruction on the whole raster. -/
theorem C2_roundtrip_witness :
    (0 < 224 ∧ imgC2.chans = 1 ∧ 224 ∣ imgC2.height ∧ 224 ∣ imgC2.width) ∧
    keysOf (cut_into_tiles imgC2 224) = [(0, 0), (0, 224), (224, 0), (224, 224)] ∧
    (∀ r c : Nat, r < imgC2.height → c < imgC2.width →
      evalAt (jahit_tiles (cut_into_tiles imgC2 224) [imgC2.height, imgC2.width]) r c =
        some (imgC2.data r c 0)) :=
  ⟨⟨by decide, by decide, by decide, by decide⟩, by decide,
    C2_roundtrip imgC2 224 (by decide) (by decide) (by decide) (by decide)⟩

/-- C3 (amended): for every non-empty tile mapping whose tiles all share
one tile size T, fit inside the requested (H, W), and whose keyed regions
are pairwise non-overlapping (distinct entries never cover a common pixel
-- e.g. keys that are multiples of T, as the Tiler produces), the Stitcher
succeeds; the result equals each tile's first (single) channel on that
tile's region, equals exactly 0 on every cell covered by no tile, and a
channel entry in the requested output shape is ignored. -/
theorem C3_stitcher_spec (tiles : List ((Nat × Nat) × Img ℚ)) (H W T : Nat)
    (hne : tiles ≠ [])
    (htiles : ∀ kt ∈ tiles, kt.2.height = T ∧ kt.2.width = T)
    (hfit : ∀ kt ∈ tiles, kt.1.1 + T ≤ H ∧ kt.1.2 + T ≤ W)
    (hdisj : ∀ kt ∈ tiles, ∀ kt2 ∈ tiles, kt ≠ kt2 → ∀ r c : Nat,
      ¬(inRegion H W T kt.1.1 kt.1.2 r c ∧ inRegion H W T kt2.1.1 kt2.1.2 r c)) :
    ∃ f, jahit_tiles tiles [H, W] = .ok f ∧
      (∀ kt ∈ tiles, ∀ r c : Nat, r < T → c < T →
        f (kt.1.1 + r) (kt.1.2 + c) = kt.2.data r c 0) ∧
      (∀ r c : Nat, (∀ kt ∈ tiles, ¬ inRegion H W T kt.1.1 kt.1.2 r c) →
        f r c = 0) ∧
      (∀ C : Nat, jahit_tiles tiles [H, W, C] = jahit_tiles tiles [H, W]) := by
  rcases tiles with _ | ⟨t0, rest⟩
  · exact absurd rfl hne
  have hmins : ∀ kt ∈ t0 :: rest,
      min T (H - kt.1.1) = T ∧ min T (W - kt.1.2) = T := by
    intro kt hkt
    obtain ⟨h1, h2⟩ := hfit kt hkt
    exact ⟨min_eq_left (by omega), min_eq_left (by omega)⟩
  have hconds : ∀ kt ∈ t0 :: rest, assignCond H W T kt := by
    intro kt hkt
    obtain ⟨hh, hw⟩ := htiles kt hkt
    obtain ⟨hm1, hm2⟩ := hmins kt hkt
    exact ⟨Or.inl (by rw [hh, hm1]), Or.inl (by rw [hw, hm2])⟩
  have ht0 : t0.2.height = T := (htiles t0 (List.mem_cons_self t0 rest)).1
  have hok := jahit_tiles_ok_cons H W T t0 rest ht0 hconds
  refine ⟨(t0 :: rest).foldl (applyTile H W T) fun _ _ => (0 : ℚ), hok, ?_, ?_, ?_⟩
  · intro kt hkt r c hr hc
    obtain ⟨hh, hw⟩ := htiles kt hkt
    obtain ⟨hm1, hm2⟩ := hmins kt hkt
    have hcov : inRegion H W T kt.1.1 kt.1.2 (kt.1.1 + r) (kt.1.2 + c) := by
      rw [inRegion, hm1, hm2]
      omega
    have huc : ∀ a ∈ t0 :: rest, ∀ b ∈ t0 :: rest,
        inRegion H W T a.1.1 a.1.2 (kt.1.1 + r) (kt.1.2 + c) →
        inRegion H W T b.1.1 b.1.2 (kt.1.1 + r) (kt.1.2 + c) → a = b := by
      intro a ha b hb hca hcb
      by_contra hab
      exact hdisj a ha b hb hab (kt.1.1 + r) (kt.1.2 + c) ⟨hca, hcb⟩
    rw [foldl_apply_covered H W T (t0 :: rest) (kt.1.1 + r) (kt.1.2 + c) huc
      kt hkt hcov]
    have e1 : kt.1.1 + r - kt.1.1 = r := by omega
    have e2 : kt.1.2 + c - kt.1.2 = c := by omega
    by_cases h1 : kt.2.height = 1
    · have hT1 : T = 1 := by rw [← hh, h1]
      have hr0 : r = 0 := by omega
      by_cases h2 : kt.2.width = 1
      · have hc0 : c = 0 := by omega
        rw [if_pos h1, if_pos h2, hr0, hc0]
      · rw [if_pos h1, if_neg h2, e2, hr0]
    · by_cases h2 : kt.2.width = 1
      · have hT1 : T = 1 := by rw [← hw, h2]
        have hc0 : c = 0 := by omega
        rw [if_neg h1, if_pos h2, e1, hc0]
      · rw [if_neg h1, if_neg h2, e1, e2]
  · intro r c hnone
    exact foldl_apply_untouched H W T (t0 :: rest) r c hnone _
  · intro C
    exact jahit_tiles_chan_ignored (t0 :: rest) H W C

/-- C3 counterexample: two equal-size (2 x 2), in-bounds tiles whose keyed
regions overlap at pixel (1, 1) -- keys (0, 0) and (1, 1) in a 3 x 3
output.  The claim as stated demands the region of key (0, 0) to equal
that tile (value 1 at offset (1, 1)), but the later write wins and the
stitched value there is 2. -/
theorem C3_stitcher_counterexample :
    tilesOverlap.length = 2 ∧
    (∀ kt ∈ tilesOverlap, kt.2.height = 2 ∧ kt.2.width = 2 ∧
      kt.1.1 + 2 ≤ 3 ∧ kt.1.2 + 2 ≤ 3) ∧
    ((0, 0), tileOne) ∈ tilesOverlap ∧
    inRegion 3 3 2 0 0 1 1 ∧
    tileOne.data 1 1 0 = 1 ∧
    evalAt (jahit_tiles tilesOverlap [3, 3]) 1 1 = some 2 :=
  ⟨by decide, by decide, List.mem_cons_self _ _, by decide, by decide, by decide⟩

/-- Witness for C3 (amended) at a singleton mapping: one 2 x 2 tile at the
origin stitched into a 2 x 2 target. -/
theorem C3_stitcher_spec_witness :
    ∃ f, jahit_tiles tilesSingle [2, 2] = .ok f ∧
      (∀ kt ∈ tilesSingle, ∀ r c : Nat, r < 2 → c < 2 →
        f (kt.1.1 + r) (kt.1.2 + c) = kt.2.data r c 0) ∧
      (∀ r c : Nat, (∀ kt ∈ tilesSingle, ¬ inRegion 2 2 2 kt.1.1 kt.1.2 r c) →
        f r c = 0) ∧
      (∀ C : Nat, jahit_tiles tilesSingle [2, 2, C] = jahit_tiles tilesSingle [2, 2]) :=
  C3_stitcher_spec tilesSingle 2 2 2 (by simp [tilesSingle]) (by decide) (by decide)
    (by
      intro kt hkt kt2 hkt2 hne12
      rw [tilesSingle, List.mem_singleton] at hkt hkt2
      rw [hkt, hkt2] at hne12
      exact absurd rfl hne12)

/-- C7 (amended): for the empty tile mapping the Stitcher fails fast for
every requested output shape -- but the failure is precisely the
iteration-over-empty-sequence fault (`StopIteration` from
`next(iter(tiles.values()))` while inferring the tile size), not a
descriptive contract-violation error; it never returns an all-zero
array. -/
theorem C7_empty_mapping (output_shape : List Nat) :
    jahit_tiles [] output_shape = .error .stopIteration := rfl

/-- C7 counterexample: on the empty mapping (output shape (448, 448)) the
code raises exactly the modelled `StopIteration` -- the
"iteration over an empty sequence" fault the claim says must not surface
-- rather than a descriptive input-contract error. -/
theorem C7_empty_mapping_counterexample :
    jahit_tiles [] [448, 448] = .error .stopIteration ∧
    PyError.stopIteration ≠ PyError.valueError :=
  ⟨rfl, by decide⟩

/-- C9: a raster strictly smaller than the tile size in either dimension
yields the empty TileSet (no error is signalled -- the function is total
and simply returns an empty dictionary), and feeding that empty TileSet to
the Stitcher hits the empty-mapping failure (`StopIteration`). -/
theorem C9_small_raster (img : Img ℚ) (T : Nat)
    (h : img.height < T ∨ img.width < T) :
    cut_into_tiles img T = [] ∧
    jahit_tiles (cut_into_tiles img T) [img.height, img.width] =
      .error .stopIteration := by
  have hempty : cut_into_tiles img T = [] := by
    unfold cut_into_tiles
    refine flatMap_eq_nil_of_nil fun i _ => ?_
    refine filterMap_eq_nil_of_none fun j _ => ?_
    refine if_neg ?_
    rintro ⟨h1, h2⟩
    have h1m : min T (img.height - i) = T := h1
    have h2m : min T (img.width - j) = T := h2
    have l1 := min_eq_left_iff.mp h1m
    have l2 := min_eq_left_iff.mp h2m
    rcases h with hs | hs <;> omega
  rw [hempty]
  exact ⟨rfl, rfl⟩

/-- Witness for C9 at a concrete 3 x 3 raster with tile size 5. -/
theorem C9_small_raster_witness :
    (imgSmall.height < 5 ∨ imgSmall.width < 5) ∧
    (cut_into_tiles imgSmall 5 = [] ∧
      jahit_tiles (cut_into_tiles imgSmall 5) [imgSmall.height, imgSmall.width] =
        .error .stopIteration) :=
  ⟨by decide, C9_small_raster imgSmall 5 (by decide)⟩

/-- C10 (amended): for a mapping of uniform tile size T, if T is at least
2 and some key's T x T block overruns the requested (H, W), stitching
raises the broadcast shape-mismatch error (`ValueError`) instead of
clipping; when T = 1 an out-of-range write is instead silently dropped
(NumPy broadcasts the (1, 1) right-hand side into the empty clipped
slice), which is what the counterexample exhibits.  Under the precondition
that every keyed block fits, stitching succeeds and every copy writes a
full T x T block (the clipped slice dimensions equal T). -/
theorem C10_stitcher_bounds (tiles : List ((Nat × Nat) × Img ℚ)) (H W T : Nat)
    (htiles : ∀ kt ∈ tiles, kt.2.height = T ∧ kt.2.width = T) :
    (2 ≤ T → (∃ kt ∈ tiles, H < kt.1.1 + T ∨ W < kt.1.2 + T) →
      jahit_tiles tiles [H, W] = .error .valueError) ∧
    ((∀ kt ∈ tiles, kt.1.1 + T ≤ H ∧ kt.1.2 + T ≤ W) → tiles ≠ [] →
      ∃ f, jahit_tiles tiles [H, W] = .ok f ∧
        ∀ kt ∈ tiles, min T (H - kt.1.1) = T ∧ min T (W - kt.1.2) = T) := by
  constructor
  · rintro h2T ⟨kt0, hkt0, hb⟩
    rcases tiles with _ | ⟨t0, rest⟩
    · exact absurd hkt0 (List.not_mem_nil kt0)
    have ht0 : t0.2.height = T := (htiles t0 (List.mem_cons_self t0 rest)).1
    refine jahit_tiles_err_cons H W T t0 rest ht0 ⟨kt0, hkt0, ?_⟩
    obtain ⟨hkh, hkw⟩ := htiles kt0 hkt0
    rintro ⟨hca, hcb⟩
    rcases hb with hb | hb
    · rcases hca with hca | hca
      · rw [hkh] at hca
        have : min T (H - kt0.1.1) ≤ H - kt0.1.1 := min_le_right _ _
        omega
      · rw [hkh] at hca
        omega
    · rcases hcb with hcb | hcb
      · rw [hkw] at hcb
        have : min T (W - kt0.1.2) ≤ W - kt0.1.2 := min_le_right _ _
        omega
      · rw [hkw] at hcb
        omega
  · intro hfit hne
    rcases tiles with _ | ⟨t0, rest⟩
    · exact absurd rfl hne
    have hmins : ∀ kt ∈ t0 :: rest,
        min T (H - kt.1.1) = T ∧ min T (W - kt.1.2) = T := by
      intro kt hkt
      obtain ⟨h1, h2⟩ := hfit kt hkt
      exact ⟨min_eq_left (by omega), min_eq_left (by omega)⟩
    have hconds : ∀ kt ∈ t0 :: rest, assignCond H W T kt := by
      intro kt hkt
      obtain ⟨hh, hw⟩ := htiles kt hkt
      obtain ⟨hm1, hm2⟩ := hmins kt hkt
      exact ⟨Or.inl (by rw [hh, hm1]), Or.inl (by rw [hw, hm2])⟩
    have ht0 : t0.2.height = T := (htiles t0 (List.mem_cons_self t0 rest)).1
    exact ⟨_, jahit_tiles_ok_cons H W T t0 rest ht0 hconds, hmins⟩

/-- C10 counterexample: a single 1 x 1 tile keyed at (1, 0) overruns a
1 x 1 output (1 + 1 > 1), yet stitching succeeds -- NumPy broadcasts the
(1, 1) right-hand side into the empty clipped slice, silently dropping the
tile -- and the output cell stays 0. -/
theorem C10_stitcher_bounds_counterexample :
    (∀ kt ∈ tilesOut1, kt.2.height = 1 ∧ kt.2.width = 1) ∧
    (1, 0) ∈ keysOf tilesOut1 ∧ 1 + 1 > 1 ∧
    isOkE (jahit_tiles tilesOut1 [1, 1]) = true ∧
    evalAt (jahit_tiles tilesOut1 [1, 1]) 0 0 = some 0 :=
  ⟨by decide, by decide, by decide, by decide, by decide⟩

/-- Witness for C10 (amended) at the singleton 2 x 2 tile mapping with a
2 x 2 output. -/
theorem C10_stitcher_bounds_witness :
    (2 ≤ 2 → (∃ kt ∈ tilesSingle, 2 < kt.1.1 + 2 ∨ 2 < kt.1.2 + 2) →
      jahit_tiles tilesSingle [2, 2] = .error .valueError) ∧
    ((∀ kt ∈ tilesSingle, kt.1.1 + 2 ≤ 2 ∧ kt.1.2 + 2 ≤ 2) → tilesSingle ≠ [] →
      ∃ f, jahit_tiles tilesSingle [2, 2] = .ok f ∧
        ∀ kt ∈ tilesSingle, min 2 (2 - kt.1.1) = 2 ∧ min 2 (2 - kt.1.2) = 2) :=
  C10_stitcher_bounds tilesSingle 2 2 2 (by decide)

theorem lookup_isSome_of_mem_keys (d : List ((Nat × Nat) × Img ℚ))
    (k : Nat × Nat) (h : k ∈ keysOf d) : (List.lookup k d).isSome := by
  induction d with
  | nil => simp [keysOf] at h
  | cons a l ih =>
    rw [keysOf, List.map_cons] at h
    rcases List.mem_cons.mp h with h | h
    · subst h
      simp [List.lookup]
    · rw [List.lookup]
      rcases hbeq : k == a.1 with _ | _
      · exact ih h
      · rfl

/-- C4 (amended): only one direction of key-space mismatch is detected,
and only once the split itself is admissible.  For a satellite TileSet
with at least two keys (with fewer, sklearn's `train_test_split` raises
its empty-train `ValueError` before any lookup, again without producing
misaligned pairs), a key of the satellite TileSet absent from the
vegetation TileSet makes gathering fail with a `KeyError` identifying a
key that is indeed missing from the vegetation side (and belongs to the
satellite key space); partially-misaligned pairs are never returned.  A
key present only in the vegetation TileSet is silently ignored (the key
list is taken from the satellite dictionary alone), as the counterexample
shows. -/
theorem C4_split_missing_key (sat veg : List ((Nat × Nat) × Img ℚ))
    (shuffled : List (Nat × Nat)) (hperm : shuffled.Perm (keysOf sat))
    (hlen2 : 2 ≤ (keysOf sat).length)
    (hmiss : ∃ k ∈ keysOf sat, List.lookup k veg = none) :
    ∃ k, split_tiles sat veg shuffled = .error (.keyError k) ∧
      List.lookup k veg = none ∧ k ∈ keysOf sat := by
  have hslen : 2 ≤ shuffled.length := by
    rw [hperm.length_eq]
    exact hlen2
  have htts := tts_ok_of_two_le shuffled hslen
  have hsat : ∀ k ∈ shuffled, (List.lookup k sat).isSome := fun k hk =>
    lookup_isSome_of_mem_keys sat k (hperm.mem_iff.mp hk)
  rw [split_tiles_eq_ok sat veg shuffled _ _ htts]
  rcases h1 : gather sat (shuffled.drop ((shuffled.length + 4) / 5)) with e | st
  · obtain ⟨hmem, hnone⟩ := gather_err_missing sat _ e h1
    have := hsat e (List.mem_of_mem_drop hmem)
    rw [hnone] at this
    exact absurd this (by simp)
  rcases h2 : gather veg (shuffled.drop ((shuffled.length + 4) / 5)) with e | vt
  · refine ⟨e, rfl, ?_⟩
    obtain ⟨hmem, hnone⟩ := gather_err_missing veg _ e h2
    exact ⟨hnone, hperm.mem_iff.mp (List.mem_of_mem_drop hmem)⟩
  rcases h3 : gather sat (shuffled.take ((shuffled.length + 4) / 5)) with e | ste
  · obtain ⟨hmem, hnone⟩ := gather_err_missing sat _ e h3
    have := hsat e (List.mem_of_mem_take hmem)
    rw [hnone] at this
    exact absurd this (by simp)
  rcases h4 : gather veg (shuffled.take ((shuffled.length + 4) / 5)) with e | vte
  · refine ⟨e, rfl, ?_⟩
    obtain ⟨hmem, hnone⟩ := gather_err_missing veg _ e h4
    exact ⟨hnone, hperm.mem_iff.mp (List.mem_of_mem_take hmem)⟩
  · exfalso
    obtain ⟨k, hk, hnone⟩ := hmiss
    have hks : k ∈ shuffled := hperm.mem_iff.mpr hk
    rw [← List.take_append_drop ((shuffled.length + 4) / 5) shuffled] at hks
    rcases List.mem_append.mp hks with hk2 | hk2
    · have := gather_ok_present veg _ vte h4 k hk2
      rw [hnone] at this
      exact absurd this (by simp)
    · have := gather_ok_present veg _ vt h2 k hk2
      rw [hnone] at this
      exact absurd this (by simp)

/-- C4 counterexample: a two-key satellite TileSet (so the split itself
is admissible and sklearn raises no `ValueError`) paired with a
vegetation TileSet holding the extra key (1, 0) absent from the satellite
side -- yet the split succeeds, because the gathered key list comes from
the satellite dictionary alone.  This contradicts
"fails ... in either direction". -/
theorem C4_split_missing_key_counterexample :
    keysOf satPair = [(0, 0), (0, 1)] ∧
    (List.lookup (1, 0) satPair).isNone = true ∧
    (List.lookup (1, 0) vegThree).isSome = true ∧
    isOkE (split_tiles satPair vegThree [(0, 0), (0, 1)]) = true :=
  ⟨by decide, by decide, by decide, by decide⟩

/-- Witness for C4 (amended): the two-key satellite dictionary has key
(0, 1) absent from the one-key vegetation dictionary, and the split
surfaces a `KeyError`. -/
theorem C4_split_missing_key_witness :
    ([(0, 0), (0, 1)] : List (Nat × Nat)).Perm (keysOf satPair) ∧
    2 ≤ (keysOf satPair).length ∧
    (∃ k ∈ keysOf satPair, List.lookup k satOne = none) ∧
    (∃ k, split_tiles satPair satOne [(0, 0), (0, 1)] = .error (.keyError k) ∧
      List.lookup k satOne = none ∧ k ∈ keysOf satPair) :=
  ⟨by decide, by decide, ⟨(0, 1), by decide, by
      have : (List.lookup ((0 : Nat), (1 : Nat)) satOne).isNone = true := by decide
      simpa [Option.isNone_iff_eq_none] using this⟩,
    C4_split_missing_key satPair satOne [(0, 0), (0, 1)] (by decide) (by decide)
      ⟨(0, 1), by decide, by
        have : (List.lookup ((0 : Nat), (1 : Nat)) satOne).isNone = true := by decide
        simpa [Option.isNone_iff_eq_none] using this⟩⟩

/-- C5: for every pair of TileSets sharing a key space (every satellite
key resolves in the vegetation dictionary and vice versa), whenever the
DatasetSplitter returns an output, the n-th gathered satellite tile and
the n-th gathered vegetation tile are the entries stored under the same
n-th key of the corresponding key list -- the pairing is never broken by
independent reordering; and the split does return an output whenever the
key space has at least two keys (below that sklearn's `train_test_split`
raises `ValueError` and no output exists). -/
theorem C5_pairing (sat veg : List ((Nat × Nat) × Img ℚ))
    (shuffled : List (Nat × Nat))
    (hsv : ∀ k ∈ keysOf sat, (List.lookup k veg).isSome)
    (hvs : ∀ k ∈ keysOf veg, (List.lookup k sat).isSome)
    (hperm : shuffled.Perm (keysOf sat)) :
    (∀ out, split_tiles sat veg shuffled = .ok out →
      (∀ n : Nat, out.sat_train[n]? =
        out.train_indices[n]?.bind fun k => List.lookup k sat) ∧
      (∀ n : Nat, out.veg_train[n]? =
        out.train_indices[n]?.bind fun k => List.lookup k veg) ∧
      (∀ n : Nat, out.sat_test[n]? =
        out.test_indices[n]?.bind fun k => List.lookup k sat) ∧
      (∀ n : Nat, out.veg_test[n]? =
        out.test_indices[n]?.bind fun k => List.lookup k veg)) ∧
    (2 ≤ (keysOf sat).length →
      ∃ out, split_tiles sat veg shuffled = .ok out) := by
  constructor
  · intro out hout
    rcases htts : train_test_split_model shuffled with e | p
    · rw [split_tiles_eq_err sat veg shuffled e htts] at hout
      exact absurd hout (by simp)
    obtain ⟨tr, te⟩ := p
    rw [split_tiles_eq_ok sat veg shuffled tr te htts] at hout
    rcases h1 : gather sat tr with e | st <;> rw [h1] at hout
    · exact absurd hout (by simp)
    rcases h2 : gather veg tr with e | vt <;> rw [h2] at hout
    · exact absurd hout (by simp)
    rcases h3 : gather sat te with e | ste <;> rw [h3] at hout
    · exact absurd hout (by simp)
    rcases h4 : gather veg te with e | vte <;> rw [h4] at hout
    · exact absurd hout (by simp)
    have hinj := Except.ok.inj hout
    rw [← hinj]
    exact ⟨gather_ok_getElem sat tr st h1, gather_ok_getElem veg tr vt h2,
      gather_ok_getElem sat te ste h3, gather_ok_getElem veg te vte h4⟩
  · intro hlen2
    have hslen : 2 ≤ shuffled.length := by
      rw [hperm.length_eq]
      exact hlen2
    have htts := tts_ok_of_two_le shuffled hslen
    have hsat : ∀ k ∈ shuffled, (List.lookup k sat).isSome := fun k hk =>
      lookup_isSome_of_mem_keys sat k (hperm.mem_iff.mp hk)
    have hveg : ∀ k ∈ shuffled, (List.lookup k veg).isSome := fun k hk =>
      hsv k (hperm.mem_iff.mp hk)
    obtain ⟨st, h1⟩ := gather_ok_of_present sat
      (shuffled.drop ((shuffled.length + 4) / 5))
      fun k hk => hsat k (List.mem_of_mem_drop hk)
    obtain ⟨vt, h2⟩ := gather_ok_of_present veg
      (shuffled.drop ((shuffled.length + 4) / 5))
      fun k hk => hveg k (List.mem_of_mem_drop hk)
    obtain ⟨ste, h3⟩ := gather_ok_of_present sat
      (shuffled.take ((shuffled.length + 4) / 5))
      fun k hk => hsat k (List.mem_of_mem_take hk)
    obtain ⟨vte, h4⟩ := gather_ok_of_present veg
      (shuffled.take ((shuffled.length + 4) / 5))
      fun k hk => hveg k (List.mem_of_mem_take hk)
    refine ⟨⟨shuffled.drop ((shuffled.length + 4) / 5),
      shuffled.take ((shuffled.length + 4) / 5), st, vt, ste, vte⟩, ?_⟩
    rw [split_tiles_eq_ok sat veg shuffled _ _ htts, h1, h2, h3, h4]

/-- Witness for C5 at two concrete two-key dictionaries sharing the key
space {(0,0), (0,1)}, with the shuffle reversing the key order. -/
theorem C5_pairing_witness :
    (∀ k ∈ keysOf satPair, (List.lookup k vegPair).isSome) ∧
    (∀ k ∈ keysOf vegPair, (List.lookup k satPair).isSome) ∧
    ([(0, 1), (0, 0)] : List (Nat × Nat)).Perm (keysOf satPair) ∧
    ((∀ out, split_tiles satPair vegPair [(0, 1), (0, 0)] = .ok out →
      (∀ n : Nat, out.sat_train[n]? =
        out.train_indices[n]?.bind fun k => List.lookup k satPair) ∧
      (∀ n : Nat, out.veg_train[n]? =
        out.train_indices[n]?.bind fun k => List.lookup k vegPair) ∧
      (∀ n : Nat, out.sat_test[n]? =
        out.test_indices[n]?.bind fun k => List.lookup k satPair) ∧
      (∀ n : Nat, out.veg_test[n]? =
        out.test_indices[n]?.bind fun k => List.lookup k vegPair)) ∧
    (2 ≤ (keysOf satPair).length →
      ∃ out, split_tiles satPair vegPair [(0, 1), (0, 0)] = .ok out)) :=
  ⟨by decide, by decide, by decide,
    C5_pairing satPair vegPair [(0, 1), (0, 0)] (by decide) (by decide) (by decide)⟩

/-- C6 (amended): for a TileSet of size N at least 2 (with distinct keys,
as a dict guarantees) and any permutation of its keys as the shuffle, the
split produces train and test key lists whose lengths sum to N, which are
disjoint, together a permutation of the original key list, with the test
size within one unit of round(0.2 * N); whenever `split_tiles` returns,
its key lists are exactly these.  For N equal to 0 or 1 sklearn's
`train_test_split` raises its empty-side `ValueError` and no key lists
exist, which is what the counterexample exhibits. -/
theorem C6_split_sizes (sat veg : List ((Nat × Nat) × Img ℚ))
    (shuffled : List (Nat × Nat)) (hnd : (keysOf sat).Nodup)
    (hperm : shuffled.Perm (keysOf sat))
    (hlen2 : 2 ≤ (keysOf sat).length) :
    ∃ tr te, train_test_split_model shuffled = .ok (tr, te) ∧
      tr.length + te.length = (keysOf sat).length ∧
      (∀ k, ¬(k ∈ tr ∧ k ∈ te)) ∧
      (tr ++ te).Perm (keysOf sat) ∧
      ((te.length : ℤ) - round (((keysOf sat).length : ℚ) / 5)).natAbs ≤ 1 ∧
      (∀ out, split_tiles sat veg shuffled = .ok out →
        out.train_indices = tr ∧ out.test_indices = te) := by
  have hlen : shuffled.length = (keysOf sat).length := hperm.length_eq
  have hslen : 2 ≤ shuffled.length := by omega
  have htts := tts_ok_of_two_le shuffled hslen
  have hnT : (shuffled.length + 4) / 5 ≤ shuffled.length := by omega
  refine ⟨shuffled.drop ((shuffled.length + 4) / 5),
    shuffled.take ((shuffled.length + 4) / 5), htts, ?_, ?_, ?_, ?_, ?_⟩
  · rw [List.length_drop, List.length_take]
    omega
  · intro k ⟨hk1, hk2⟩
    have hshnd : shuffled.Nodup := (hperm.nodup_iff).mpr hnd
    rw [← List.take_append_drop ((shuffled.length + 4) / 5) shuffled] at hshnd
    obtain ⟨-, -, hdisj⟩ := List.nodup_append.mp hshnd
    exact hdisj hk2 hk1
  · refine List.Perm.trans ?_ hperm
    refine List.Perm.trans (List.perm_append_comm) ?_
    rw [List.take_append_drop]
  · rw [List.length_take, min_eq_left hnT, hlen]
    exact ceil_fifth_near_round (keysOf sat).length
  · intro out hout
    rw [split_tiles_eq_ok sat veg shuffled _ _ htts] at hout
    rcases h1 : gather sat (shuffled.drop ((shuffled.length + 4) / 5))
        with e | st <;> rw [h1] at hout
    · exact absurd hout (by simp)
    rcases h2 : gather veg (shuffled.drop ((shuffled.length + 4) / 5))
        with e | vt <;> rw [h2] at hout
    · exact absurd hout (by simp)
    rcases h3 : gather sat (shuffled.take ((shuffled.length + 4) / 5))
        with e | ste <;> rw [h3] at hout
    · exact absurd hout (by simp)
    rcases h4 : gather veg (shuffled.take ((shuffled.length + 4) / 5))
        with e | vte <;> rw [h4] at hout
    · exact absurd hout (by simp)
    · have hinj := Except.ok.inj hout
      exact ⟨congrArg SplitResult.train_indices hinj.symm,
        congrArg SplitResult.test_indices hinj.symm⟩

/-- C6 counterexample: a TileSet of size N = 1.  sklearn's
`train_test_split(test_size=0.2)` computes n_test = 1, n_train = 0 and
raises "the resulting train set will be empty" (`ValueError`), so the
split produces no train/test key lists at all -- the claim's
"for every TileSet of size N" fails at N = 1. -/
theorem C6_split_sizes_counterexample :
    (keysOf satOne).length = 1 ∧
    train_test_split_model (keysOf satOne) = .error SplitError.valueError ∧
    split_tiles satOne satOne (keysOf satOne) = .error SplitError.valueError :=
  ⟨rfl, rfl, rfl⟩

/-- Witness for C6 (amended) at a six-key dictionary with the identity
shuffle: train and test sizes 4 and 2, disjoint, jointly a permutation of
the keys, and 2 is within one of round(1.2). -/
theorem C6_split_sizes_witness :
    (keysOf satSix).Nodup ∧ (keysOf satSix).Perm (keysOf satSix) ∧
    2 ≤ (keysOf satSix).length ∧
    (∃ tr te, train_test_split_model (keysOf satSix) = .ok (tr, te) ∧
      tr.length + te.length = (keysOf satSix).length ∧
      (∀ k, ¬(k ∈ tr ∧ k ∈ te)) ∧
      (tr ++ te).Perm (keysOf satSix) ∧
      ((te.length : ℤ) - round (((keysOf satSix).length : ℚ) / 5)).natAbs ≤ 1 ∧
      (∀ out, split_tiles satSix satSix (keysOf satSix) = .ok out →
        out.train_indices = tr ∧ out.test_indices = te)) :=
  ⟨by decide, List.Perm.refl _, by decide,
    C6_split_sizes satSix satSix (keysOf satSix) (by decide) (List.Perm.refl _)
      (by decide)⟩

theorem sigmoid_nonneg (x : ℝ) : 0 ≤ sigmoid x := by
  rw [sigmoid]
  have hexp : 0 < Real.exp (-x) := Real.exp_pos _
  have hden : 0 < 1 + Real.exp (-x) := by linarith
  positivity

theorem sigmoid_le_one (x : ℝ) : sigmoid x ≤ 1 := by
  rw [sigmoid]
  have hexp : 0 < Real.exp (-x) := Real.exp_pos _
  rw [div_le_one (by linarith)]
  linarith

/-- C8: for every parameter set and every input of shape (H, W, 4) with H
and W divisible by 4, the network's output has shape (H, W, 1) and every
output value lies in [0, 1] (the final layer is a 1 x 1 convolution with
one output channel and sigmoid activation). -/
theorem C8_unet_spec (p : UNetWeights) (input : Img ℝ)
    (hch : input.chans = 4) (hH : 4 ∣ input.height) (hW : 4 ∣ input.width) :
    (uncompiled_unet p input).height = input.height ∧
    (uncompiled_unet p input).width = input.width ∧
    (uncompiled_unet p input).chans = 1 ∧
    (∀ i j ch : Nat, 0 ≤ (uncompiled_unet p input).data i j ch ∧
      (uncompiled_unet p input).data i j ch ≤ 1) := by
  refine ⟨?_, ?_, rfl, ?_⟩
  · show 2 * (2 * (input.height / 2 / 2)) = input.height
    obtain ⟨A, hA⟩ := hH
    rw [hA]
    omega
  · show 2 * (2 * (input.width / 2 / 2)) = input.width
    obtain ⟨B, hB⟩ := hW
    rw [hB]
    omega
  · intro i j ch
    have hy : ∃ y, (uncompiled_unet p input).data i j ch = sigmoid y := ⟨_, rfl⟩
    obtain ⟨y, hy⟩ := hy
    rw [hy]
    exact ⟨sigmoid_nonneg y, sigmoid_le_one y⟩

/-- Witness for C8 at the zero parameter set and a 4 x 4 x 4 zero input. -/
theorem C8_unet_spec_witness :
    inputZero.chans = 4 ∧ 4 ∣ inputZero.height ∧ 4 ∣ inputZero.width ∧
    ((uncompiled_unet zeroWeights inputZero).height = inputZero.height ∧
      (uncompiled_unet zeroWeights inputZero).width = inputZero.width ∧
      (uncompiled_unet zeroWeights inputZero).chans = 1 ∧
      (∀ i j ch : Nat, 0 ≤ (uncompiled_unet zeroWeights inputZero).data i j ch ∧
        (uncompiled_unet zeroWeights inputZero).data i j ch ≤ 1)) :=
  ⟨rfl, by decide, by decide,
    C8_unet_spec zeroWeights inputZero rfl (by decide) (by decide)⟩
